import Mathlib

/-
Verification of the RunCommand plugin (src/plugins/RunCommand/run_command.py).

Modelling conventions:
  * Python `str` values are modelled as `List Char`.
  * The byte strings fed to and captured from the subprocess are modelled by
    their UTF-8 decoded text (`List Char`): UTF-8 encoding is injective, so
    byte-for-byte equality of encoded strings coincides with equality of the
    decoded text, which is all the routing logic inspects.
  * The editor side effects performed by `RunCommandCommand.run_command`
    (error popups, region replacement, new scratch files) are reified as an
    explicit list of `Effect` values, and the subprocess outcome is an input
    (`ProcResult`) to the now-pure routing function.
-/

namespace RunCommand

/-- Convert a string literal to the `List Char` representation used throughout. -/
def str (s : String) : List Char := s.data

/-! ### Python `str.replace`

`replaceGo` is the left-to-right, non-overlapping scan performed by CPython's
`str.replace`: at each position, if the pattern matches, emit the replacement
and resume after the matched occurrence, otherwise keep the character.  The
`Nat` argument is structural fuel; `pyReplace` supplies `s.length`, which is
enough whenever the pattern is nonempty (each step consumes at least one
character of the scanned string).  The empty-pattern case reproduces CPython's
behaviour of inserting the replacement around every character. -/

def replaceGo (pat val : List Char) : Nat → List Char → List Char
  | 0, s => s
  | _ + 1, [] => []
  | fuel + 1, c :: rest =>
    if pat.isPrefixOf (c :: rest) then
      val ++ replaceGo pat val fuel ((c :: rest).drop pat.length)
    else
      c :: replaceGo pat val fuel rest

/-- Model of Python `s.replace(pat, val)` (replaces every occurrence). -/
def pyReplace (s pat val : List Char) : List Char :=
  if pat = [] then val ++ (s.map (fun c => c :: val)).flatten
  else replaceGo pat val s.length s

/-! ### Placeholder extraction

`CommandInputHandler.extract_arguments_from_command` is
`re.findall(r"\$\x7barg_.+?\x7d", command)`.  The regex engine scans start
positions left to right; at a position where the literal prefix `$\x7barg_`
matches, the lazy `.+?` consumes the shortest run of at least one
non-newline character followed by `\x7d` (`.` does not match a newline);
on success the scan resumes after the match (matches do not overlap), on
failure it advances one position.  `findClose` / `scanBody` model the lazy
part, `findArgsGo` the position scan (with structural fuel; one character is
consumed per step, so `command.length` is always sufficient). -/

/-- The literal prefix of a placeholder token. -/
def argPrefix : List Char := str "$\x7barg_"

/-- Scan for the first closing brace, failing on a newline (which `.` cannot
match).  Returns the consumed characters (closing brace included) and the
remainder of the input. -/
def findClose : List Char → Option (List Char × List Char)
  | [] => none
  | c :: rest =>
    if c = '\x7d' then some ([c], rest)
    else if c = '\n' then none
    else
      match findClose rest with
      | some (body, rem) => some (c :: body, rem)
      | none => none

/-- Lazy match of `.+?` followed by the closing brace: at least one
non-newline character, then the first closing brace. -/
def scanBody : List Char → Option (List Char × List Char)
  | [] => none
  | c :: rest =>
    if c = '\n' then none
    else
      match findClose rest with
      | some (body, rem) => some (c :: body, rem)
      | none => none

/-- Position-by-position scan of `re.findall`. -/
def findArgsGo : Nat → List Char → List (List Char)
  | 0, _ => []
  | _ + 1, [] => []
  | fuel + 1, c :: rest =>
    if argPrefix.isPrefixOf (c :: rest) then
      match scanBody ((c :: rest).drop 6) with
      | some (body, rem) => (argPrefix ++ body) :: findArgsGo fuel rem
      | none => findArgsGo fuel rest
    else findArgsGo fuel rest

/-- Model of `CommandInputHandler.extract_arguments_from_command`. -/
def extract_arguments_from_command (command : List Char) : List (List Char) :=
  findArgsGo command.length command

/-! ### Argument input handler (placeholder resolver)

`ArgumentInputHandler` holds the current template, the placeholder token being
resolved, and the remaining tokens.  `rindexOpt` models Python `str.rindex`
(index of the last occurrence, exception — here `none` — when absent);
`argument_name` / `argument_default_value` are the slices computed in
`ArgumentInputHandler.__init__`, and `next_input` is the chain step: it
substitutes the confirmed value for the current token (Python `str.replace`,
all occurrences) and hands the remaining tokens to the successor node. -/

/-- Model of Python `s.rindex(c)`: the index of the last occurrence of `c`
in `s`, or `none` when `c` does not occur (Python raises `ValueError`). -/
def rindexOpt : List Char → Char → Option Nat
  | [], _ => none
  | a :: rest, c =>
    match rindexOpt rest c with
    | some i => some (i + 1)
    | none => if a = c then some 0 else none

/-- Python slice `tok[6:i]` for `i = tok.rindex('|')`, falling back to
`tok[6:-1]` when there is no separator. -/
def argument_name (tok : List Char) : List Char :=
  match rindexOpt tok '|' with
  | some i => (tok.drop 6).take (i - 6)
  | none => (tok.drop 6).dropLast

/-- Python slice `tok[tok.rindex('|') + 1 : -1]`, falling back to the empty
string when there is no separator. -/
def argument_default_value (tok : List Char) : List Char :=
  match rindexOpt tok '|' with
  | some i => (tok.drop (i + 1)).dropLast
  | none => []

/-- State of `ArgumentInputHandler`: the template being filled in, the token
currently being resolved (`arguments[0]` at construction) and the remaining
tokens (`arguments[1:]`). -/
structure ArgumentInputHandler where
  command : List Char
  argument : List Char
  next_arguments : List (List Char)
deriving DecidableEq

/-- Model of `ArgumentInputHandler.next_input`: once the current token's
value is confirmed, substitute it into the template (Python `str.replace` —
every occurrence) and build the successor node from the remaining tokens;
when none remain the chain ends. -/
def ArgumentInputHandler.next_input (h : ArgumentInputHandler) (value : List Char) :
    Option ArgumentInputHandler :=
  match h.next_arguments with
  | [] => none
  | a :: rest => some ⟨pyReplace h.command h.argument value, a, rest⟩

/-! ### Executor and output router

`RunCommandCommand.run_command` spawns the subprocess, feeds it the region
text (empty for a null region), and routes the outcome.  The subprocess
outcome is an input here (`ProcResult`); the editor side effects are the
output (`List Effect`, in the order the code performs them).  The `timedOut`
branch models `process.kill()` (forced termination), `process.communicate()`
(the draining of remaining output, whose result is discarded) and the error
popup; the `spawnError` branch models the `subprocess.SubprocessError`
handler. -/

/-- A `sublime.Region`: a span of the document. -/
structure SublimeRegion where
  a : Int
  b : Int
deriving DecidableEq

/-- Outcome of the subprocess call, as observed by `run_command`. -/
inductive ProcResult where
  | completed (stdout stderr : List Char)
  | timedOut
  | spawnError (msg : List Char)
deriving DecidableEq

/-- Editor-visible side effects of one `run_command` call, in order. -/
inductive Effect where
  | killProcess
  | drainOutput
  | errorMessage (msg : List Char)
  | replaceRegion (r : SublimeRegion) (text : List Char)
  | newScratchFile (name : List Char) (content : List Char)
deriving DecidableEq

/-- Model of `RunCommandCommand.run_command`.  `viewSubstr` is the host
collaborator `view.substr`; `hasWindow` tells whether `view.window()` is
non-`None`.  Byte strings are represented by their UTF-8 decoded text (see
the header comment). -/
def run_command (command : List Char) (target : List Char)
    (region : Option SublimeRegion) (viewSubstr : SublimeRegion → List Char)
    (hasWindow : Bool) (result : ProcResult) : List Effect :=
  match result with
  | .spawnError msg => [.errorMessage msg]
  | .timedOut =>
    [.killProcess, .drainOutput,
      .errorMessage (str "The command '" ++ command ++ str "' has timed out.")]
  | .completed stdout stderr =>
    let stdin : List Char :=
      match region with
      | some r => viewSubstr r
      | none => []
    if stderr ≠ [] then [.errorMessage stderr]
    else if target == str "selection" && region.isSome then
      match region with
      | some r => if stdin ≠ stdout then [.replaceRegion r stdout] else []
      | none => []
    else if target == str "window" then
      if hasWindow then [.newScratchFile command stdout] else []
    else []

/-! ### Orchestrator: keyword-argument split in `RunCommandCommand.run`

`run` partitions the caller-supplied pairs into the recognized
`CommandArguments` field names (`items_in`) and the rest (`items_out`), then
replaces each leftover key occurring in the command by its value.  Only
string-valued pairs are relevant to the substitution, so pairs are modelled
as `List Char × List Char`. -/

/-- The field names of the `CommandArguments` dataclass. -/
def commandArgumentsFields : List (List Char) :=
  [str "command", str "cwd", str "timeout", str "source", str "target"]

/-- Model of `items_in`: the pairs whose key is a recognized field name. -/
def run_items_in (kwargs : List (List Char × List Char)) :
    List (List Char × List Char) :=
  kwargs.filter (fun kv => decide (kv.1 ∈ commandArgumentsFields))

/-- Model of `items_out`: the remaining pairs. -/
def run_items_out (kwargs : List (List Char × List Char)) :
    List (List Char × List Char) :=
  kwargs.filter (fun kv => !decide (kv.1 ∈ commandArgumentsFields))

/-- Model of the substitution loop in `run`: each leftover pair is applied
to the command by Python `str.replace` (every occurrence of the key). -/
def run_substituted_command (command : List Char)
    (kwargs : List (List Char × List Char)) : List Char :=
  (run_items_out kwargs).foldl (fun cmd kv => pyReplace cmd kv.1 kv.2) command

/-! ### Supporting lemmas -/


/-- Unfolding step for a successful pattern match at the current position. -/
theorem replaceGo_cons_pos (pat val : List Char) (f : Nat) (s : List Char)
    (h : pat.isPrefixOf s = true) (hs : s ≠ []) :
    replaceGo pat val (f + 1) s = val ++ replaceGo pat val f (s.drop pat.length) := by
  cases s with
  | nil => exact absurd rfl hs
  | cons c rest =>
    simp only [replaceGo]
    rw [if_pos h]

/-- Unfolding step for a failed pattern match at the current position. -/
theorem replaceGo_cons_neg (pat val : List Char) (f : Nat) (c : Char) (rest : List Char)
    (h : ¬ pat.isPrefixOf (c :: rest) = true) :
    replaceGo pat val (f + 1) (c :: rest) = c :: replaceGo pat val f rest := by
  simp only [replaceGo]
  rw [if_neg h]

/-- The result of `replaceGo` does not depend on the fuel, provided the fuel
covers the length of the scanned list and the pattern is nonempty. -/
theorem replaceGo_fuel (pat val : List Char) (hpat : pat ≠ []) :
    ∀ fuel₁ fuel₂ s, s.length ≤ fuel₁ → s.length ≤ fuel₂ →
      replaceGo pat val fuel₁ s = replaceGo pat val fuel₂ s := by
  intro fuel₁
  induction fuel₁ with
  | zero =>
    intro fuel₂ s h₁ _
    have hs : s = [] := List.eq_nil_of_length_eq_zero (Nat.le_zero.mp h₁)
    subst hs
    cases fuel₂ <;> rfl
  | succ f ih =>
    intro fuel₂ s h₁ h₂
    cases s with
    | nil => cases fuel₂ <;> rfl
    | cons c rest =>
      cases fuel₂ with
      | zero => simp at h₂
      | succ f₂ =>
        have hpatlen : 1 ≤ pat.length := by
          cases pat with
          | nil => exact absurd rfl hpat
          | cons a l => simp
        by_cases hpre : pat.isPrefixOf (c :: rest) = true
        · rw [replaceGo_cons_pos pat val f _ hpre (by simp),
            replaceGo_cons_pos pat val f₂ _ hpre (by simp)]
          have hlen : ((c :: rest).drop pat.length).length ≤ f := by
            simp only [List.length_drop, List.length_cons] at *
            omega
          have hlen₂ : ((c :: rest).drop pat.length).length ≤ f₂ := by
            simp only [List.length_drop, List.length_cons] at *
            omega
          rw [ih f₂ _ hlen hlen₂]
        · rw [replaceGo_cons_neg pat val f c rest hpre,
            replaceGo_cons_neg pat val f₂ c rest hpre]
          have hlen : rest.length ≤ f := by
            simp only [List.length_cons] at h₁; omega
          have hlen₂ : rest.length ≤ f₂ := by
            simp only [List.length_cons] at h₂; omega
          rw [ih f₂ _ hlen hlen₂]

/-- If the pattern matches nowhere in `s` (at no start position), the scan
leaves `s` unchanged, whatever the fuel. -/
theorem replaceGo_no_match (pat val : List Char) :
    ∀ fuel s, (∀ i, ¬ pat <+: s.drop i) → replaceGo pat val fuel s = s := by
  intro fuel
  induction fuel with
  | zero => intro s _; rfl
  | succ f ih =>
    intro s h
    cases s with
    | nil => rfl
    | cons c rest =>
      have h0 : ¬ pat.isPrefixOf (c :: rest) = true := by
        intro hb
        exact h 0 (List.isPrefixOf_iff_prefix.mp hb)
      rw [replaceGo_cons_neg pat val f c rest h0]
      rw [ih rest (fun i => h (i + 1))]

/-- Python `replace` is the identity when the pattern occurs nowhere in `s`. -/
theorem pyReplace_no_match (s pat val : List Char) (hpat : pat ≠ [])
    (h : ∀ i, i < s.length → ¬ pat <+: s.drop i) :
    pyReplace s pat val = s := by
  unfold pyReplace
  rw [if_neg hpat]
  apply replaceGo_no_match
  intro i
  by_cases hi : i < s.length
  · exact h i hi
  · intro hp
    rw [List.drop_eq_nil_of_le (by omega)] at hp
    exact hpat (List.prefix_nil.mp hp)

/-- Core substitution lemma: when the scanned string decomposes as
`p ++ (pat ++ rest)` with no occurrence of the pattern starting inside `p`,
the scan replaces this occurrence of `pat` and continues on `rest`. -/
theorem replaceGo_append (pat val : List Char) (hpat : pat ≠ []) :
    ∀ p rest fuel, (p ++ (pat ++ rest)).length ≤ fuel →
      (∀ i, i < p.length → ¬ pat <+: (p ++ (pat ++ rest)).drop i) →
      replaceGo pat val fuel (p ++ (pat ++ rest))
        = p ++ (val ++ replaceGo pat val rest.length rest) := by
  intro p
  induction p with
  | nil =>
    intro rest fuel hfuel _
    simp only [List.nil_append] at hfuel ⊢
    cases fuel with
    | zero =>
      exfalso
      have : 1 ≤ pat.length := by
        cases pat with
        | nil => exact absurd rfl hpat
        | cons a l => simp
      simp only [List.length_append] at hfuel
      omega
    | succ f =>
      have hpre : pat.isPrefixOf (pat ++ rest) = true :=
        List.isPrefixOf_iff_prefix.mpr ⟨rest, rfl⟩
      have hne : pat ++ rest ≠ [] := by
        intro hemp
        exact hpat (List.append_eq_nil.mp hemp).1
      rw [replaceGo_cons_pos pat val f _ hpre hne, List.drop_left]
      have hr : rest.length ≤ f := by
        have : 1 ≤ pat.length := by
          cases pat with
          | nil => exact absurd rfl hpat
          | cons a l => simp
        simp only [List.length_append] at hfuel
        omega
      rw [replaceGo_fuel pat val hpat f rest.length rest hr (le_refl _)]
  | cons a p' ih =>
    intro rest fuel hfuel h
    cases fuel with
    | zero => simp at hfuel
    | succ f =>
      rw [List.cons_append]
      have h0 : ¬ pat.isPrefixOf (a :: (p' ++ (pat ++ rest))) = true := by
        intro hb
        have := h 0 (by simp)
        rw [List.drop_zero, List.cons_append] at this
        exact this (List.isPrefixOf_iff_prefix.mp hb)
      rw [replaceGo_cons_neg pat val f a _ h0]
      rw [ih rest f (by simp only [List.cons_append, List.length_cons] at hfuel; omega)
        (fun i hi => by
          have := h (i + 1) (by simp only [List.length_cons]; omega)
          rw [List.cons_append, List.drop_succ_cons] at this
          exact this)]
      rw [List.cons_append]

/-- Python `replace` on a string of the shape `p ++ pat ++ rest` (first
occurrence of `pat` at position `p.length`) substitutes that occurrence and
proceeds with the remainder. -/
theorem pyReplace_append (pat val p rest : List Char) (hpat : pat ≠ [])
    (hp : ∀ i, i < p.length → ¬ pat <+: (p ++ (pat ++ rest)).drop i) :
    pyReplace (p ++ (pat ++ rest)) pat val
      = p ++ (val ++ pyReplace rest pat val) := by
  unfold pyReplace
  rw [if_neg hpat, if_neg hpat]
  exact replaceGo_append pat val hpat p rest _ (le_refl _) hp


/-- Every match consumed by `findClose` ends with the closing brace. -/
theorem findClose_shape :
    ∀ l body rem, findClose l = some (body, rem) →
      ∃ mid, body = mid ++ ['\x7d'] := by
  intro l
  induction l with
  | nil => intro body rem h; simp [findClose] at h
  | cons c rest ih =>
    intro body rem h
    simp only [findClose] at h
    by_cases hc : c = '\x7d'
    · rw [if_pos hc] at h
      refine ⟨[], ?_⟩
      have : body = [c] := by
        cases h
        rfl
      simp [this, hc]
    · rw [if_neg hc] at h
      by_cases hn : c = '\n'
      · rw [if_pos hn] at h
        cases h
      · rw [if_neg hn] at h
        cases hfc : findClose rest with
        | none => rw [hfc] at h; cases h
        | some p =>
          rw [hfc] at h
          obtain ⟨b, r⟩ := p
          obtain ⟨mid, hmid⟩ := ih b r hfc
          cases h
          exact ⟨c :: mid, by simp [hmid]⟩

/-- Every match consumed by `scanBody` is one character followed by a
(possibly empty) run and the closing brace: the body between the prefix and
the closing brace is never empty. -/
theorem scanBody_shape :
    ∀ l body rem, scanBody l = some (body, rem) →
      ∃ c mid, body = c :: (mid ++ ['\x7d']) := by
  intro l
  cases l with
  | nil => intro body rem h; simp [scanBody] at h
  | cons c rest =>
    intro body rem h
    simp only [scanBody] at h
    by_cases hn : c = '\n'
    · rw [if_pos hn] at h; cases h
    · rw [if_neg hn] at h
      cases hfc : findClose rest with
      | none => rw [hfc] at h; cases h
      | some p =>
        rw [hfc] at h
        obtain ⟨b, r⟩ := p
        obtain ⟨mid, hmid⟩ := findClose_shape rest b r hfc
        cases h
        exact ⟨c, mid, by simp [hmid]⟩

/-- Every token produced by the scan starts with the placeholder prefix and
consists of at least one character followed by the closing brace. -/
theorem findArgsGo_shape :
    ∀ fuel s t, t ∈ findArgsGo fuel s →
      ∃ c mid, t = argPrefix ++ (c :: (mid ++ ['\x7d'])) := by
  intro fuel
  induction fuel with
  | zero => intro s t h; simp [findArgsGo] at h
  | succ f ih =>
    intro s t h
    cases s with
    | nil => simp [findArgsGo] at h
    | cons c rest =>
      simp only [findArgsGo] at h
      by_cases hpre : argPrefix.isPrefixOf (c :: rest) = true
      · rw [if_pos hpre] at h
        cases hsb : scanBody ((c :: rest).drop 6) with
        | none =>
          rw [hsb] at h
          exact ih rest t h
        | some p =>
          rw [hsb] at h
          obtain ⟨body, rem⟩ := p
          obtain ⟨c', mid, hbody⟩ := scanBody_shape _ body rem hsb
          rcases List.mem_cons.mp h with h1 | h2
          · exact ⟨c', mid, by rw [h1, hbody]⟩
          · exact ih rem t h2
      · rw [if_neg hpre] at h
        exact ih rest t h


/-- `rindexOpt` on an appended list: an occurrence in the right part wins
(shifted by the length of the left part); otherwise fall back to the left. -/
theorem rindexOpt_append (xs ys : List Char) (c : Char) :
    rindexOpt (xs ++ ys) c
      = match rindexOpt ys c with
        | some j => some (xs.length + j)
        | none => rindexOpt xs c := by
  induction xs with
  | nil =>
    simp only [List.nil_append, List.length_nil]
    cases hys : rindexOpt ys c with
    | none => simp [rindexOpt]
    | some j => simp
  | cons a xs ih =>
    have step : rindexOpt ((a :: xs) ++ ys) c
        = match rindexOpt (xs ++ ys) c with
          | some i => some (i + 1)
          | none => if a = c then some 0 else none := rfl
    rw [step, ih]
    cases hys : rindexOpt ys c with
    | none => rfl
    | some j =>
      simp only [Option.some.injEq, List.length_cons]
      omega

/-- `rindexOpt` finds nothing exactly when the character is absent. -/
theorem rindexOpt_eq_none_iff (s : List Char) (c : Char) :
    rindexOpt s c = none ↔ c ∉ s := by
  induction s with
  | nil => simp [rindexOpt]
  | cons a rest ih =>
    simp only [rindexOpt, List.mem_cons]
    cases h : rindexOpt rest c with
    | some i => simp [← ih, h]
    | none =>
      by_cases hac : a = c
      · simp [hac]
      · have hca : ¬ c = a := fun hh => hac hh.symm
        simp [hac, ← ih, h, hca]

/-- Dropping the placeholder prefix. -/
theorem argPrefix_drop6 (l : List Char) : (argPrefix ++ l).drop 6 = l := by
  have h := List.drop_left argPrefix l
  rwa [show argPrefix.length = 6 from rfl] at h

/-- When the text after the last separator contains no separator, `rindex`
finds exactly the separator position `6 + nm.length`. -/
theorem rindexOpt_sep (nm d : List Char) (hd : '|' ∉ d) :
    rindexOpt (argPrefix ++ (nm ++ ('|' :: (d ++ ['\x7d'])))) '|'
      = some (6 + nm.length) := by
  have hsplit : argPrefix ++ (nm ++ ('|' :: (d ++ ['\x7d'])))
      = (argPrefix ++ nm) ++ ('|' :: (d ++ ['\x7d'])) := by
    rw [List.append_assoc]
  rw [hsplit, rindexOpt_append]
  have htail : rindexOpt ('|' :: (d ++ ['\x7d'])) '|' = some 0 := by
    have hnone : rindexOpt (d ++ ['\x7d']) '|' = none := by
      rw [rindexOpt_eq_none_iff]
      simp only [List.mem_append, List.mem_singleton]
      rintro (h1 | h2)
      · exact hd h1
      · cases h2
    simp only [rindexOpt, hnone]
    simp
  rw [htail]
  simp only [List.length_append, Option.some.injEq]
  rw [show argPrefix.length = 6 from rfl]
  omega

/-- When the token has no separator at all, `rindex` raises (returns none). -/
theorem rindexOpt_no_sep (nm : List Char) (hn : '|' ∉ nm) :
    rindexOpt (argPrefix ++ (nm ++ ['\x7d'])) '|' = none := by
  rw [rindexOpt_eq_none_iff]
  intro hmem
  rcases List.mem_append.mp hmem with h1 | h2
  · revert h1; decide
  · rcases List.mem_append.mp h2 with h3 | h4
    · exact hn h3
    · exact absurd h4 (by decide)

/-! ### Claims -/

/-- C2: placeholder extraction returns the tokens matching the non-greedy
pattern in left-to-right order with duplicates preserved:
`extract("$\x7barg_x\x7d and $\x7barg_y|def\x7d")` yields the two tokens in
order, a template without placeholders yields the empty sequence, and a
token appearing twice yields two entries. -/
theorem extract_ordered_tokens :
    extract_arguments_from_command (str "$\x7barg_x\x7d and $\x7barg_y|def\x7d")
      = [str "$\x7barg_x\x7d", str "$\x7barg_y|def\x7d"]
    ∧ extract_arguments_from_command (str "no placeholders") = []
    ∧ extract_arguments_from_command (str "$\x7barg_x\x7d $\x7barg_x\x7d")
      = [str "$\x7barg_x\x7d", str "$\x7barg_x\x7d"] :=
  ⟨by decide, by decide, by decide⟩

/-- C9: extraction never yields a token with an empty name-and-default body —
every extracted token is the prefix, at least one character, then the closing
brace — and the input consisting of the seven characters of an empty
placeholder (with no later closing brace) yields the empty sequence. -/
theorem extract_never_empty_body (s t : List Char)
    (ht : t ∈ extract_arguments_from_command s) :
    (∃ c mid, t = argPrefix ++ (c :: (mid ++ ['\x7d'])))
    ∧ extract_arguments_from_command (str "$\x7barg_\x7d") = [] :=
  ⟨findArgsGo_shape _ _ _ ht, by decide⟩

/-- Witness for C9 at the concrete template of one two-character placeholder. -/
theorem extract_never_empty_body_witness :
    (∃ c mid, str "$\x7barg_ab\x7d" = argPrefix ++ (c :: (mid ++ ['\x7d'])))
    ∧ extract_arguments_from_command (str "$\x7barg_\x7d") = [] :=
  extract_never_empty_body (str "$\x7barg_ab\x7d") (str "$\x7barg_ab\x7d") (by decide)

/-- C3: the derived name is the token text from position 6 up to the last
separator (up to the closing brace when there is none), and the derived
default is the text after the last separator up to the closing brace (empty
when there is none); in particular the name of the token with body `a|b|c`
is `a|b` and its default is `c`. -/
theorem argument_name_default_derivation (nm nmp d : List Char)
    (hd : '|' ∉ d) (hn : '|' ∉ nm) :
    (argument_name (argPrefix ++ (nmp ++ ('|' :: (d ++ ['\x7d'])))) = nmp
      ∧ argument_default_value (argPrefix ++ (nmp ++ ('|' :: (d ++ ['\x7d'])))) = d)
    ∧ (argument_name (argPrefix ++ (nm ++ ['\x7d'])) = nm
      ∧ argument_default_value (argPrefix ++ (nm ++ ['\x7d'])) = [])
    ∧ (argument_name (str "$\x7barg_a|b|c\x7d") = str "a|b"
      ∧ argument_default_value (str "$\x7barg_a|b|c\x7d") = str "c") := by
  refine ⟨⟨?_, ?_⟩, ⟨?_, ?_⟩, by decide⟩
  · simp only [argument_name, rindexOpt_sep nmp d hd]
    rw [argPrefix_drop6]
    have hidx : 6 + nmp.length - 6 = nmp.length := by omega
    rw [hidx, List.take_left]
  · simp only [argument_default_value, rindexOpt_sep nmp d hd]
    have hsplit : argPrefix ++ (nmp ++ ('|' :: (d ++ ['\x7d'])))
        = (argPrefix ++ (nmp ++ ['|'])) ++ (d ++ ['\x7d']) := by simp
    have hidx : 6 + nmp.length + 1 = (argPrefix ++ (nmp ++ ['|'])).length := by
      simp only [List.length_append, List.length_cons, List.length_nil,
        show argPrefix.length = 6 from rfl]
      omega
    rw [hsplit, hidx, List.drop_left, List.dropLast_concat]
  · simp only [argument_name, rindexOpt_no_sep nm hn]
    rw [argPrefix_drop6, List.dropLast_concat]
  · simp only [argument_default_value, rindexOpt_no_sep nm hn]

/-- Witness for C3 at the tokens with bodies `name|val` and `name`. -/
theorem argument_name_default_derivation_witness :
    (argument_name (argPrefix ++ (str "name" ++ ('|' :: (str "val" ++ ['\x7d'])))) = str "name"
      ∧ argument_default_value (argPrefix ++ (str "name" ++ ('|' :: (str "val" ++ ['\x7d'])))) = str "val")
    ∧ (argument_name (argPrefix ++ (str "name" ++ ['\x7d'])) = str "name"
      ∧ argument_default_value (argPrefix ++ (str "name" ++ ['\x7d'])) = [])
    ∧ (argument_name (str "$\x7barg_a|b|c\x7d") = str "a|b"
      ∧ argument_default_value (str "$\x7barg_a|b|c\x7d") = str "c") :=
  argument_name_default_derivation (str "name") (str "name") (str "val")
    (by decide) (by decide)

/-- C1: advancing past a resolved placeholder substitutes every occurrence of
the exact token: when the template splits as `p ++ tok ++ m ++ tok ++ s` with
no occurrence of the token starting inside `p`, `m` or `s`, the successor
node's template has the resolved value at both positions, and the remaining
tokens are handed on unchanged. -/
theorem next_input_substitutes_every_occurrence
    (h : ArgumentInputHandler) (value nxt : List Char) (rest : List (List Char))
    (hnext : h.next_arguments = nxt :: rest)
    (p m s : List Char)
    (hcmd : h.command = p ++ (h.argument ++ (m ++ (h.argument ++ s))))
    (harg : h.argument ≠ [])
    (hp : ∀ i, i < p.length →
      ¬ h.argument <+: (p ++ (h.argument ++ (m ++ (h.argument ++ s)))).drop i)
    (hm : ∀ i, i < m.length → ¬ h.argument <+: (m ++ (h.argument ++ s)).drop i)
    (hs : ∀ i, i < s.length → ¬ h.argument <+: s.drop i) :
    h.next_input value = some ⟨p ++ (value ++ (m ++ (value ++ s))), nxt, rest⟩ := by
  simp only [ArgumentInputHandler.next_input, hnext]
  have hrepl : pyReplace h.command h.argument value
      = p ++ (value ++ (m ++ (value ++ s))) := by
    rw [hcmd, pyReplace_append h.argument value p _ harg hp,
      pyReplace_append h.argument value m s harg hm,
      pyReplace_no_match s h.argument value harg hs]
  rw [hrepl]

/-- Witness for C1: resolving the first placeholder of the doubled template
with the value 5 replaces both occurrences before the next token is offered. -/
theorem next_input_substitutes_every_occurrence_witness :
    ArgumentInputHandler.next_input
        ⟨str "$\x7barg_x\x7d $\x7barg_x\x7d $\x7barg_y\x7d",
          str "$\x7barg_x\x7d", [str "$\x7barg_y\x7d"]⟩ (str "5")
      = some ⟨str "" ++ (str "5" ++ (str " " ++ (str "5" ++ str " $\x7barg_y\x7d"))),
          str "$\x7barg_y\x7d", []⟩ :=
  next_input_substitutes_every_occurrence
    ⟨str "$\x7barg_x\x7d $\x7barg_x\x7d $\x7barg_y\x7d",
      str "$\x7barg_x\x7d", [str "$\x7barg_y\x7d"]⟩
    (str "5") (str "$\x7barg_y\x7d") [] rfl
    (str "") (str " ") (str " $\x7barg_y\x7d")
    (by decide) (by decide) (by decide) (by decide) (by decide)

/-- C4: a non-empty stderr is a failure no matter the target, region or
stdout: the only effect is the error popup showing the decoded stderr, and
stdout is applied nowhere. -/
theorem stderr_suppresses_stdout
    (command target : List Char) (region : Option SublimeRegion)
    (viewSubstr : SublimeRegion → List Char) (hasWindow : Bool)
    (stdout stderr : List Char) (h : stderr ≠ []) :
    run_command command target region viewSubstr hasWindow
        (.completed stdout stderr)
      = [.errorMessage stderr] := by
  simp only [run_command]
  rw [if_pos h]

/-- Witness for C4 with a nonempty stdout and a successful-looking run. -/
theorem stderr_suppresses_stdout_witness :
    run_command (str "cmd") (str "selection") none (fun _ => []) true
        (.completed (str "out") (str "err"))
      = [.errorMessage (str "err")] :=
  stderr_suppresses_stdout (str "cmd") (str "selection") none (fun _ => []) true
    (str "out") (str "err") (by decide)

/-- C5: on timeout the process is killed, the remaining output drained and
discarded, the reported message contains the literal command text, and no
document edit or new document is produced. -/
theorem timeout_kills_and_reports
    (command target : List Char) (region : Option SublimeRegion)
    (viewSubstr : SublimeRegion → List Char) (hasWindow : Bool) :
    run_command command target region viewSubstr hasWindow .timedOut
      = [.killProcess, .drainOutput,
          .errorMessage (str "The command '" ++ command ++ str "' has timed out.")]
    ∧ command <:+: (str "The command '" ++ command ++ str "' has timed out.")
    ∧ (∀ r t, Effect.replaceRegion r t
        ∉ run_command command target region viewSubstr hasWindow .timedOut)
    ∧ (∀ n c, Effect.newScratchFile n c
        ∉ run_command command target region viewSubstr hasWindow .timedOut) := by
  refine ⟨rfl, ⟨str "The command '", str "' has timed out.", rfl⟩, ?_, ?_⟩
  · intro r t hmem
    simp [run_command] at hmem
  · intro n c hmem
    simp [run_command] at hmem

/-- C6: with target selection and a non-null region, a clean run performs no
edit when stdout equals the stdin that was fed to the process, and replaces
the region content with stdout exactly when they differ. -/
theorem selection_noop_when_stdout_equals_stdin
    (command : List Char) (r : SublimeRegion)
    (viewSubstr : SublimeRegion → List Char) (hasWindow : Bool)
    (stdout : List Char) :
    run_command command (str "selection") (some r) viewSubstr hasWindow
        (.completed stdout [])
      = if stdout = viewSubstr r then [] else [.replaceRegion r stdout] := by
  simp only [run_command]
  rw [if_neg (fun hc => hc rfl)]
  have h1 : (str "selection" == str "selection" && (some r).isSome) = true := rfl
  rw [h1]
  simp only [if_true]
  by_cases heq : stdout = viewSubstr r
  · rw [if_pos heq, if_neg (fun hne => hne heq.symm)]
  · rw [if_neg heq, if_pos (fun hsym => heq hsym.symm)]

/-- C7: with target window and a clean run, a new scratch document is
created, named with the command string, with the decoded stdout appended. -/
theorem window_target_creates_scratch
    (command : List Char) (region : Option SublimeRegion)
    (viewSubstr : SublimeRegion → List Char) (stdout : List Char) :
    run_command command (str "window") region viewSubstr true
        (.completed stdout [])
      = [.newScratchFile command stdout] := by
  simp only [run_command]
  rw [if_neg (fun hc => hc rfl)]
  have h1 : (str "window" == str "selection" && region.isSome) = false := rfl
  have h2 : (str "window" == str "window") = true := rfl
  rw [h1, h2]
  simp

/-- C10: with target selection but a null region (source none), a clean run
applies stdout nowhere: no region replacement and no new document. -/
theorem selection_null_region_discards_stdout
    (command : List Char) (viewSubstr : SublimeRegion → List Char)
    (hasWindow : Bool) (stdout : List Char) :
    run_command command (str "selection") none viewSubstr hasWindow
        (.completed stdout []) = [] := by
  simp only [run_command]
  rw [if_neg (fun hc => hc rfl)]
  rw [if_neg (by decide), if_neg (by decide)]

/-- C8: the caller-supplied pairs are split into exactly two buckets —
recognized CommandArguments field names and the rest — and the resulting
command is the original with every leftover pair applied as a literal
token replacement; in particular one leftover pair replaces both of its
occurrences. -/
theorem run_kwargs_partition_and_substitution
    (command : List Char) (kwargs : List (List Char × List Char)) :
    (run_items_in kwargs ++ run_items_out kwargs).Perm kwargs
    ∧ (∀ kv ∈ run_items_in kwargs, kv.1 ∈ commandArgumentsFields)
    ∧ (∀ kv ∈ run_items_out kwargs, kv.1 ∉ commandArgumentsFields)
    ∧ run_substituted_command command kwargs
        = (run_items_out kwargs).foldl (fun cmd kv => pyReplace cmd kv.1 kv.2) command
    ∧ run_substituted_command (str "$\x7barg_x\x7d $\x7barg_x\x7d")
        [(str "$\x7barg_x\x7d", str "5")] = str "5 5" := by
  refine ⟨?_, ?_, ?_, rfl, by decide⟩
  · exact List.filter_append_perm _ kwargs
  · intro kv hkv
    have hpred := (List.mem_filter.mp hkv).2
    simpa using hpred
  · intro kv hkv
    have hpred := (List.mem_filter.mp hkv).2
    simpa using hpred

end RunCommand
